import Mathlib

/-!
Verification development for the Gestr real-time coordination backend.

Part 1 embeds the WebSocket signaling server of `src/index.js`
(room registry `rooms`, `broadcastToRoom`, `leaveRoom`, and the
`ws.on('message')` handler).  Part 2 embeds the classifier worker
supervisor of `src/server/letterClassifier.js` as an event-step machine.

Modelling conventions for the JavaScript source:
* JSON values reaching the hub are modelled by `JVal`; non-primitive
  values (objects, arrays) are opaque atoms `jobj n` (the hub never
  inspects them and they are always truthy in JavaScript).  Floating
  point numbers never flow through a branch the claims touch, so `jnum`
  carries `Int`.
* A parsed JSON object is an association list of fields; property read
  `data.k` is `getF data k` (first match; objects produced by
  `JSON.parse` have unique keys).
* A JavaScript `Map` is an association list with unique keys; a `Set`
  is a duplicate-free list in insertion order (`setAdd` is a no-op on a
  present element, exactly like `Set.prototype.add`).
* `undefined` property reads are `Option.none`.  The room-map key can be
  any value including `undefined` (a `join` without `roomId` stores the
  session under key `undefined`), hence `RoomKey := Option JVal` with
  `none` standing for `undefined`.  The per-connection variable
  `currentRoom` starts as `null` and is afterwards always the last
  `data.roomId`; `null` and `undefined` are both falsy and `currentRoom`
  is only used as a map key under a truthiness guard or immediately
  after assignment, so both are represented by `none`.
* WebSocket handles are identified by `Nat` session ids; the
  `readyState === 1` check in `broadcastToRoom` is the predicate
  `openS : Nat → Bool` supplied by the environment.
-/

namespace Gestr

/-- A JSON value as seen by the signaling hub.  `jobj n` is an opaque
non-primitive value (object or array), always truthy in JavaScript. -/
inductive JVal where
  | jstr (s : String)
  | jnum (i : Int)
  | jbool (b : Bool)
  | jnull
  | jobj (n : Nat)
deriving DecidableEq, Repr

/-- JavaScript truthiness of a `JVal`. -/
def JVal.truthy : JVal → Bool
  | .jstr s => s ≠ ""
  | .jnum i => i ≠ 0
  | .jbool b => b
  | .jnull => false
  | .jobj _ => true

/-- Truthiness of a possibly-`undefined` value (`none` = `undefined`/`null`). -/
def truthyO : Option JVal → Bool
  | none => false
  | some v => v.truthy

/-- A parsed JSON object: field list in key order. -/
abbrev JObj := List (String × JVal)

/-! ### JavaScript `Map` / `Set` over association lists -/

/-- `map.get(k)` (first binding; keys are unique in a `Map`). -/
def mget {κ α : Type} [DecidableEq κ] : List (κ × α) → κ → Option α
  | [], _ => none
  | (a, v) :: t, k => if a = k then some v else mget t k

/-- `map.delete(k)` (removes the binding of `k`; with unique keys the
filter removes exactly that binding). -/
def mdel {κ α : Type} [DecidableEq κ] (l : List (κ × α)) (k : κ) : List (κ × α) :=
  l.filter (fun p => decide (p.1 ≠ k))

/-- In-place update of the value stored at `k` (mutating the `Set` object
returned by `map.get(k)`). -/
def mupd {κ α : Type} [DecidableEq κ] (l : List (κ × α)) (k : κ) (f : α → α) : List (κ × α) :=
  l.map (fun p => if p.1 = k then (k, f p.2) else p)

/-- `map.set(k, v)` (replaces in place when present, appends otherwise). -/
def mset {κ α : Type} [DecidableEq κ] (l : List (κ × α)) (k : κ) (v : α) : List (κ × α) :=
  if (mget l k).isSome then mupd l k (fun _ => v) else l ++ [(k, v)]

/-- Property read `o.k`: first binding of `k`, `none` when absent
(objects produced by `JSON.parse` have unique keys). -/
def getF (o : JObj) (k : String) : Option JVal := mget o k

/-- The object `{...o, k: v}`: every field of `o` kept, `k` bound to `v`
(overwriting a previous binding, appended otherwise). -/
def setF (o : JObj) (k : String) (v : JVal) : JObj := mset o k v

/-- Optional field of a serialized object: `JSON.stringify` drops
properties whose value is `undefined`. -/
def optF (k : String) : Option JVal → JObj
  | none => []
  | some v => [(k, v)]

/-- `set.add(x)`: no-op when present, appended otherwise. -/
def setAdd {α : Type} [DecidableEq α] (l : List α) (x : α) : List α :=
  if x ∈ l then l else l ++ [x]

/-! ### The room registry and the signaling hub (`src/index.js`) -/

/-- One connected WebSocket, identified by a server-side handle. -/
abbrev SessionId := Nat

/-- A key of the `rooms` map: the raw `data.roomId` value, `none` when the
`join` message had no `roomId` field (`undefined`). -/
abbrev RoomKey := Option JVal

/-- The in-memory `rooms` map: `roomId -> Set of WebSocket connections`. -/
abbrev Rooms := List (RoomKey × List SessionId)

/-- `broadcastToRoom(roomId, senderWs, message)`: sends `message` to every
member of the room other than the sender whose socket is OPEN; does
nothing when the room does not exist. -/
def broadcastToRoom (rooms : Rooms) (key : RoomKey) (sender : SessionId)
    (openS : SessionId → Bool) (msg : JObj) : List (SessionId × JObj) :=
  match mget rooms key with
  | none => []
  | some mems =>
      (mems.filter (fun w => decide (w ≠ sender) && openS w)).map (fun w => (w, msg))

/-- `leaveRoom(roomId, ws, userId)`: removes the socket from the room,
broadcasts `peer-left` to the remaining members when `userId` is truthy,
and deletes the room entry when it became empty.  Returns the new map and
the attempted sends in order. -/
def leaveRoom (rooms : Rooms) (key : RoomKey) (ws : SessionId)
    (uid : Option JVal) (openS : SessionId → Bool) :
    Rooms × List (SessionId × JObj) :=
  match mget rooms key with
  | none => (rooms, [])
  | some mems =>
      let mems1 := mems.erase ws
      let rooms1 := mset rooms key mems1
      let sends :=
        if truthyO uid then
          broadcastToRoom rooms1 key ws openS
            ([("type", .jstr "peer-left")] ++ optF "from" uid)
        else []
      if mems1.length = 0 then (mdel rooms1 key, sends) else (rooms1, sends)

/-- The registry mutation of the `join` case:
`if (!rooms.has(r)) rooms.set(r, new Set()); rooms.get(r).add(ws)`. -/
def joinRooms (rooms : Rooms) (key : RoomKey) (ws : SessionId) : Rooms :=
  let rooms1 := if (mget rooms key).isSome then rooms else rooms ++ [(key, [])]
  mupd rooms1 key (fun mems => setAdd mems ws)

/-- The per-connection closure state of the `ws.on('message')` handler:
`currentRoom` (initially `null`) and `userId` (initially `null`). -/
structure ConnState where
  currentRoom : Option JVal
  userId : Option JVal
deriving DecidableEq, Repr

/-- Result of processing one inbound frame: new room map, new connection
state, attempted sends in order, and whether the handler closed the
connection (the source handler never does). -/
structure HubOut where
  rooms : Rooms
  conn : ConnState
  sends : List (SessionId × JObj)
  closes : Bool
deriving Repr

/-- The five forward-only message types of the relay switch. -/
def forwardTypes : List String :=
  ["offer", "answer", "ice-candidate", "transcription", "asl-letter"]

/-- One step of the `ws.on('message')` handler for one connection.
`msg = none` is an inbound frame that `JSON.parse` rejects; `now` is
`Date.now()` used for the generated fallback user id. -/
def hubStep (rooms : Rooms) (st : ConnState) (self : SessionId)
    (openS : SessionId → Bool) (now : Nat) (msg : Option JObj) : HubOut :=
  match msg with
  | none =>
      { rooms := rooms, conn := st,
        sends := [(self, [("type", .jstr "error"),
                          ("message", .jstr "Invalid message format")])],
        closes := false }
  | some data =>
      match getF data "type" with
      | some (.jstr "join") =>
          let (rooms1, leaveSends) :=
            if truthyO st.currentRoom then
              leaveRoom rooms st.currentRoom self st.userId openS
            else (rooms, [])
          let newRoom : RoomKey := getF data "roomId"
          let newUid : Option JVal :=
            if truthyO (getF data "userId") then getF data "userId"
            else some (.jstr ("user-" ++ toString now))
          let rooms2 := joinRooms rooms1 newRoom self
          let joinedMsg : JObj :=
            [("type", .jstr "joined")] ++ optF "roomId" newRoom ++ optF "userId" newUid
          let peerJoined : JObj :=
            [("type", .jstr "peer-joined")] ++ optF "userId" newUid
          { rooms := rooms2,
            conn := { currentRoom := newRoom, userId := newUid },
            sends := leaveSends ++ [(self, joinedMsg)]
                       ++ broadcastToRoom rooms2 newRoom self openS peerJoined,
            closes := false }
      | some (.jstr "leave") =>
          if truthyO st.currentRoom then
            let (rooms1, sends) := leaveRoom rooms st.currentRoom self st.userId openS
            { rooms := rooms1, conn := { st with currentRoom := none },
              sends := sends, closes := false }
          else
            { rooms := rooms, conn := st, sends := [], closes := false }
      | some (.jstr t) =>
          if t ∈ forwardTypes then
            if truthyO st.currentRoom then
              let fromVal := match st.userId with | some v => v | none => .jnull
              { rooms := rooms, conn := st,
                sends := broadcastToRoom rooms st.currentRoom self openS
                           (setF data "from" fromVal),
                closes := false }
            else
              { rooms := rooms, conn := st, sends := [], closes := false }
          else
            { rooms := rooms, conn := st, sends := [], closes := false }
      | _ =>
          { rooms := rooms, conn := st, sends := [], closes := false }

/-- Registry well-formedness: unique room keys, every existing room
non-empty (the invariant of claim C2), member sets duplicate-free. -/
def roomsWF (rooms : Rooms) : Prop :=
  (rooms.map Prod.fst).Nodup ∧
  (∀ p ∈ rooms, p.2 ≠ []) ∧
  (∀ p ∈ rooms, p.2.Nodup)

/-! ### The classifier worker supervisor (`src/server/letterClassifier.js`)

The module is single-threaded and event-driven; we embed it as a step
machine over the module-level mutable state.  Conventions:

* `pythonProcess` is `hasProc : Bool`.  Within this module
  `pythonProcess.killed` is observably always false while
  `pythonProcess` is non-null: the only `kill()` call is in
  `cleanupWorker`, which immediately sets `pythonProcess = null`.
* A correlation id `req_${Date.now()}_${++requestCounter}` is the pair
  `ReqId.mk time counter`.  The string rendering is injective (decimal
  digit runs contain no underscore, so the segment after the final
  underscore recovers `counter`), hence `Map` key equality on the
  rendered strings coincides with equality of the pairs; a worker
  response id that is not of this form matches no pending entry, which
  the model represents by any pair absent from the map.
* `classifyLetterFromBase64` suspends once, at `await ensureWorker()`.
  When `ensureWorker` resolves, the continuation runs as a microtask
  before any further I/O event, so a `classify` call with the worker
  ready is one atomic step, and `readyCallbacks.forEach(cb => cb())`
  runs every queued continuation, in queue order, within the readiness
  step.
* Timers are `timeoutFire` events; a cleared timer is one whose id the
  guard `pendingRequests.has(requestId)` no longer finds, which makes a
  spurious fire a no-op exactly as in the source.
* Promise settlements are the observable outputs: `(caller, outcome)`
  pairs, where the caller is the `Nat` identity of one
  `classifyLetterFromBase64` invocation.
-/

/-- `REQUEST_TIMEOUT_MS` of the source. -/
def REQUEST_TIMEOUT_MS : Nat := 30000

/-- A correlation id `req_${time}_${counter}`. -/
structure ReqId where
  time : Nat
  counter : Nat
deriving DecidableEq, Repr

/-- An entry of `pendingRequests`: the caller whose promise the stored
`resolve`/`reject` settle, and the deadline of its 30 s timer. -/
structure PendingEntry where
  caller : Nat
  deadline : Nat
deriving DecidableEq, Repr

/-- The module-level mutable state of `letterClassifier.js`. -/
structure WState where
  hasProc : Bool
  ready : Bool
  readyCallbacks : List (Nat × String)
  pending : List (ReqId × PendingEntry)
  counter : Nat
deriving DecidableEq, Repr

/-- State at module load. -/
def WState.init : WState :=
  { hasProc := false, ready := false, readyCallbacks := [], pending := [], counter := 0 }

/-- How one `classify` caller's promise settles. -/
inductive Outcome where
  | classified (letter conf : Option String)
  | domainError (msg : String)
  | workerExited
  | timedOut
  | notAvailable
  | writeFailed
deriving DecidableEq, Repr

/-- A parsed line of worker stdout.  Field values the supervisor passes
through opaquely (`letter`, `confidence`) are carried as their literal
text. -/
structure WResp where
  id : Option ReqId
  err : Option String
  letter : Option String
  conf : Option String
deriving DecidableEq, Repr

/-- How the stdout handler settles a matched request:
`payload.error` truthy rejects with the domain error, otherwise the
`{letter, confidence}` projection resolves. -/
def respOutcome (r : WResp) : Outcome :=
  match r.err with
  | some msg => if msg ≠ "" then .domainError msg else .classified r.letter r.conf
  | none => .classified r.letter r.conf

/-- An event delivered to the supervisor by the runtime. -/
inductive WEvent where
  /-- `classifyLetterFromBase64(img)` by caller `c`, with `Date.now() = now`
  and `writeOk` telling whether `stdin.write` succeeds. -/
  | classify (c : Nat) (img : String) (now : Nat) (writeOk : Bool)
  /-- A stderr chunk containing the sentinel `Classifier worker ready`. -/
  | readyLine (now : Nat) (writeOk : Bool)
  /-- A stdout line; `none` when blank or not parseable as JSON. -/
  | stdoutLine (resp : Option WResp)
  /-- The `setTimeout` of id `i` fires. -/
  | timeoutFire (i : ReqId)
  /-- The `exit` event of the worker process. -/
  | procExit
deriving DecidableEq, Repr

/-- Result of one event step: new state, settled promises in order,
lines written to worker stdin, and the number of `spawn` calls. -/
structure StepOut where
  st : WState
  settles : List (Nat × Outcome)
  writes : List (ReqId × String)
  spawns : Nat
deriving Repr

/-- The tail of `classifyLetterFromBase64` after `await ensureWorker()`:
the availability check, id generation, pending registration and the
guarded `stdin.write`. -/
def sendPhase (st : WState) (c : Nat) (img : String) (now : Nat)
    (writeOk : Bool) : WState × List (Nat × Outcome) × List (ReqId × String) :=
  if st.hasProc then
    let k := st.counter + 1
    let i : ReqId := ⟨now, k⟩
    if writeOk then
      ({ st with counter := k,
                 pending := mset st.pending i ⟨c, now + REQUEST_TIMEOUT_MS⟩ },
       [], [(i, img)])
    else
      ({ st with counter := k }, [(c, .writeFailed)], [])
  else
    (st, [(c, .notAvailable)], [])

/-- `readyCallbacks.forEach(cb => cb())`: run the queued classify
continuations in order, threading the state. -/
def runCallbacks (st : WState) (cbs : List (Nat × String)) (now : Nat)
    (writeOk : Bool) : WState × List (Nat × Outcome) × List (ReqId × String) :=
  match cbs with
  | [] => (st, [], [])
  | (c, img) :: t =>
      let (st1, s1, w1) := sendPhase st c img now writeOk
      let (st2, s2, w2) := runCallbacks st1 t now writeOk
      (st2, s1 ++ s2, w1 ++ w2)

/-- One event step of the supervisor. -/
def wstep (e : WEvent) (st : WState) : StepOut :=
  match e with
  | .classify c img now writeOk =>
      let spawns := if st.hasProc then 0 else 1
      let st1 := { st with hasProc := true }
      if st1.ready then
        let (st2, settles, writes) := sendPhase st1 c img now writeOk
        ⟨st2, settles, writes, spawns⟩
      else
        ⟨{ st1 with readyCallbacks := st1.readyCallbacks ++ [(c, img)] }, [], [], spawns⟩
  | .readyLine now writeOk =>
      let st1 := { st with ready := true }
      let (st2, settles, writes) := runCallbacks st1 st1.readyCallbacks now writeOk
      ⟨{ st2 with readyCallbacks := [] }, settles, writes, 0⟩
  | .stdoutLine resp =>
      match resp with
      | none => ⟨st, [], [], 0⟩
      | some r =>
          match r.id with
          | none => ⟨st, [], [], 0⟩
          | some i =>
              match mget st.pending i with
              | none => ⟨st, [], [], 0⟩
              | some entry =>
                  ⟨{ st with pending := mdel st.pending i },
                   [(entry.caller, respOutcome r)], [], 0⟩
  | .timeoutFire i =>
      match mget st.pending i with
      | none => ⟨st, [], [], 0⟩
      | some entry =>
          ⟨{ st with pending := mdel st.pending i }, [(entry.caller, .timedOut)], [], 0⟩
  | .procExit =>
      let settles := st.pending.map (fun p => (p.2.caller, Outcome.workerExited))
      ⟨{ hasProc := false, ready := false, readyCallbacks := [],
         pending := [], counter := st.counter }, settles, [], 0⟩

/-- Total number of `spawn` calls along a sequence of events. -/
def spawnCount (st : WState) : List WEvent → Nat
  | [] => 0
  | e :: t =>
      let o := wstep e st
      o.spawns + spawnCount o.st t

/-- Every pending correlation id was generated at a counter value not
above the current one (so the next generated id is fresh). -/
def pendingBound (st : WState) : Prop :=
  ∀ p ∈ st.pending, p.1.counter ≤ st.counter

/-- The callers the supervisor still holds a continuation or a pending
entry for. -/
def callersOf (st : WState) : List Nat :=
  st.readyCallbacks.map Prod.fst ++ st.pending.map (fun p => p.2.caller)

/-- Whether the event is a `classifyLetterFromBase64` invocation (the
only event that can call `startWorker`). -/
def WEvent.isClassify : WEvent → Bool
  | .classify _ _ _ _ => true
  | _ => false

/-- The caller of a `classify` event, `none` for runtime events. -/
def WEvent.callerOf : WEvent → Option Nat
  | .classify c _ _ _ => some c
  | _ => none

/-! ### Association-list lemmas -/

section MapLemmas

variable {κ α : Type} [DecidableEq κ]

theorem mget_append_of_none {l₁ : List (κ × α)} {k : κ} (l₂ : List (κ × α))
    (h : mget l₁ k = none) : mget (l₁ ++ l₂) k = mget l₂ k := by
  induction l₁ with
  | nil => rfl
  | cons p t ih =>
      by_cases hp : p.1 = k
      · simp [mget, hp] at h
      · rw [List.cons_append]
        simp only [mget, if_neg hp] at h ⊢
        exact ih h

theorem mget_append_of_some {l₁ : List (κ × α)} {k : κ} {v : α} (l₂ : List (κ × α))
    (h : mget l₁ k = some v) : mget (l₁ ++ l₂) k = some v := by
  induction l₁ with
  | nil => simp [mget] at h
  | cons p t ih =>
      by_cases hp : p.1 = k
      · rw [List.cons_append]
        simp only [mget, if_pos hp] at h ⊢
        exact h
      · rw [List.cons_append]
        simp only [mget, if_neg hp] at h ⊢
        exact ih h

theorem mget_eq_none_iff {l : List (κ × α)} {k : κ} :
    mget l k = none ↔ k ∉ l.map Prod.fst := by
  induction l with
  | nil => simp [mget]
  | cons p t ih =>
      by_cases hp : p.1 = k
      · subst hp
        simp [mget]
      · have hk : ¬ k = p.1 := fun h => hp h.symm
        simp [mget, hp, hk, ih]

theorem mget_mem {l : List (κ × α)} {k : κ} {v : α}
    (h : mget l k = some v) : (k, v) ∈ l := by
  induction l with
  | nil => simp [mget] at h
  | cons p t ih =>
      simp only [mget] at h
      by_cases hp : p.1 = k
      · rw [if_pos hp] at h
        cases p
        simp_all
      · rw [if_neg hp] at h
        exact List.mem_cons_of_mem _ (ih h)

theorem map_fst_mupd (l : List (κ × α)) (k : κ) (f : α → α) :
    (mupd l k f).map Prod.fst = l.map Prod.fst := by
  induction l with
  | nil => rfl
  | cons p t ih =>
      simp only [mupd, List.map_cons] at ih ⊢
      by_cases hp : p.1 = k
      · rw [if_pos hp]
        simp [hp, ih]
      · rw [if_neg hp]
        simp [ih]

theorem mget_mupd_self (l : List (κ × α)) (k : κ) (f : α → α) :
    mget (mupd l k f) k = (mget l k).map f := by
  induction l with
  | nil => rfl
  | cons p t ih =>
      simp only [mupd, List.map_cons]
      by_cases hp : p.1 = k
      · rw [if_pos hp]
        simp [mget, hp]
      · rw [if_neg hp]
        simp only [mget, if_neg hp]
        simpa [mupd] using ih

theorem mget_mupd_ne (l : List (κ × α)) {k k' : κ} (f : α → α) (h : k' ≠ k) :
    mget (mupd l k f) k' = mget l k' := by
  induction l with
  | nil => rfl
  | cons p t ih =>
      simp only [mupd, List.map_cons]
      by_cases hp : p.1 = k
      · rw [if_pos hp]
        have h1 : ¬ k = k' := fun hk => h hk.symm
        have h2 : ¬ p.1 = k' := by rw [hp]; exact h1
        simp only [mget, if_neg h1, if_neg h2]
        simpa [mupd] using ih
      · rw [if_neg hp]
        simp only [mget]
        by_cases hq : p.1 = k'
        · simp [if_pos hq]
        · simp only [if_neg hq]
          simpa [mupd] using ih

theorem mem_mupd {l : List (κ × α)} {k : κ} {f : α → α} {p : κ × α}
    (h : p ∈ mupd l k f) :
    (p ∈ l ∧ p.1 ≠ k) ∨ ∃ q ∈ l, q.1 = k ∧ p = (k, f q.2) := by
  simp only [mupd, List.mem_map] at h
  obtain ⟨q, hq, he⟩ := h
  by_cases hk : q.1 = k
  · right
    exact ⟨q, hq, hk, by simp_all⟩
  · left
    simp only [if_neg hk] at he
    exact ⟨he ▸ hq, by rw [← he]; exact hk⟩

theorem mget_mdel_self (l : List (κ × α)) (k : κ) :
    mget (mdel l k) k = none := by
  induction l with
  | nil => rfl
  | cons p t ih =>
      simp only [mdel, List.filter_cons]
      by_cases hp : p.1 = k
      · rw [show (decide (p.1 ≠ k)) = false by simp [hp]]
        simpa [mdel] using ih
      · rw [show (decide (p.1 ≠ k)) = true by simp [hp]]
        simp only [mget, if_neg hp]
        simpa [mdel] using ih

theorem mget_mdel_ne (l : List (κ × α)) {k k' : κ} (h : k' ≠ k) :
    mget (mdel l k) k' = mget l k' := by
  induction l with
  | nil => rfl
  | cons p t ih =>
      simp only [mdel, List.filter_cons]
      by_cases hp : p.1 = k
      · rw [show (decide (p.1 ≠ k)) = false by simp [hp]]
        have h2 : ¬ p.1 = k' := by rw [hp]; exact fun hk => h hk.symm
        rw [show mget (p :: t) k' = mget t k' by simp [mget, if_neg h2]]
        simpa [mdel] using ih
      · rw [show (decide (p.1 ≠ k)) = true by simp [hp]]
        simp only [mget]
        by_cases hq : p.1 = k'
        · simp [if_pos hq]
        · simp only [if_neg hq]
          simpa [mdel] using ih

theorem mem_mdel {l : List (κ × α)} {k : κ} {p : κ × α}
    (h : p ∈ mdel l k) : p ∈ l ∧ p.1 ≠ k := by
  simpa [mdel] using h

theorem map_fst_mdel_sublist (l : List (κ × α)) (k : κ) :
    ((mdel l k).map Prod.fst).Sublist (l.map Prod.fst) :=
  (List.filter_sublist l).map Prod.fst

theorem mset_of_none {l : List (κ × α)} {k : κ} (v : α) (h : mget l k = none) :
    mset l k v = l ++ [(k, v)] := by
  simp [mset, h]

theorem mget_mset_self (l : List (κ × α)) (k : κ) (v : α) :
    mget (mset l k v) k = some v := by
  unfold mset
  split
  · rename_i h
    rw [mget_mupd_self]
    obtain ⟨w, hw⟩ := Option.isSome_iff_exists.mp h
    simp [hw]
  · rename_i h
    have hn : mget l k = none := Option.not_isSome_iff_eq_none.mp h
    rw [mget_append_of_none _ hn]
    simp [mget]

theorem mget_mset_ne (l : List (κ × α)) {k k' : κ} (v : α) (h : k' ≠ k) :
    mget (mset l k v) k' = mget l k' := by
  unfold mset
  split
  · exact mget_mupd_ne l _ h
  · cases hg : mget l k' with
    | some w => exact mget_append_of_some _ hg
    | none =>
        rw [mget_append_of_none _ hg]
        have h1 : ¬ k = k' := fun hk => h hk.symm
        simp [mget, if_neg h1, hg]

theorem map_fst_mset_of_isSome {l : List (κ × α)} {k : κ} (v : α)
    (h : (mget l k).isSome) : (mset l k v).map Prod.fst = l.map Prod.fst := by
  simp [mset, h, map_fst_mupd]

theorem mem_mset {l : List (κ × α)} {k : κ} {v : α} {p : κ × α}
    (h : p ∈ mset l k v) : p ∈ l ∨ p = (k, v) := by
  unfold mset at h
  split at h
  · rcases mem_mupd h with h1 | ⟨q, _, _, he⟩
    · exact Or.inl h1.1
    · exact Or.inr he
  · simpa using h

theorem mdel_mupd_self (l : List (κ × α)) (k : κ) (f : α → α) :
    mdel (mupd l k f) k = mdel l k := by
  induction l with
  | nil => rfl
  | cons p t ih =>
      simp only [mupd, List.map_cons, mdel, List.filter_cons]
      by_cases hp : p.1 = k
      · rw [if_pos hp]
        rw [show (decide ((k, f p.2).1 ≠ k)) = false by simp]
        rw [show (decide (p.1 ≠ k)) = false by simp [hp]]
        simpa [mdel, mupd] using ih
      · rw [if_neg hp]
        rw [show (decide (p.1 ≠ k)) = true by simp [hp]]
        exact congrArg (p :: ·) (by simpa [mdel, mupd] using ih)

theorem mdel_mset_self (l : List (κ × α)) (k : κ) (v : α) :
    mdel (mset l k v) k = mdel l k := by
  unfold mset
  split
  · exact mdel_mupd_self l k _
  · simp [mdel, List.filter_append]

end MapLemmas

theorem setAdd_ne_nil {α : Type} [DecidableEq α] (l : List α) (x : α) :
    setAdd l x ≠ [] := by
  unfold setAdd
  split
  · rename_i h
    exact List.ne_nil_of_mem h
  · simp

theorem mem_setAdd_self {α : Type} [DecidableEq α] (l : List α) (x : α) :
    x ∈ setAdd l x := by
  unfold setAdd
  split
  · assumption
  · simp

theorem mem_setAdd {α : Type} [DecidableEq α] {l : List α} {x y : α}
    (h : y ∈ setAdd l x) : y ∈ l ∨ y = x := by
  unfold setAdd at h
  split at h
  · exact Or.inl h
  · simpa using h

theorem nodup_setAdd {α : Type} [DecidableEq α] {l : List α} (x : α)
    (h : l.Nodup) : (setAdd l x).Nodup := by
  unfold setAdd
  split
  · exact h
  · rename_i hx
    simpa [List.nodup_append] using ⟨h, hx⟩

/-! ### Claims about the room registry and the hub -/

/-- Claim C1: for every room state and broadcast from sender `S` to room
`key`, if the room is in the registry then the message is delivered to
every (open) current member other than `S` exactly once and never to
`S`, each delivery carrying the broadcast payload; if the room is absent
the broadcast delivers to no one. -/
theorem C1_broadcast_delivery (rooms : Rooms) (key : RoomKey) (S : SessionId)
    (openS : SessionId → Bool) (msg : JObj) :
    (∀ mems, mget rooms key = some mems → mems.Nodup →
      (∀ m ∈ mems, openS m = true) →
      (∀ m ∈ mems, m ≠ S →
        ((broadcastToRoom rooms key S openS msg).map Prod.fst).count m = 1) ∧
      ((broadcastToRoom rooms key S openS msg).map Prod.fst).count S = 0 ∧
      (∀ d ∈ broadcastToRoom rooms key S openS msg, d.2 = msg)) ∧
    (mget rooms key = none → broadcastToRoom rooms key S openS msg = []) := by
  constructor
  · intro mems hm hnd hopen
    have hb : broadcastToRoom rooms key S openS msg =
        (mems.filter (fun w => decide (w ≠ S) && openS w)).map (fun w => (w, msg)) := by
      simp [broadcastToRoom, hm]
    have hfst : (broadcastToRoom rooms key S openS msg).map Prod.fst =
        mems.filter (fun w => decide (w ≠ S) && openS w) := by
      rw [hb, List.map_map]
      rw [show (Prod.fst ∘ fun w : SessionId => (w, msg)) = id from rfl, List.map_id]
    refine ⟨?_, ?_, ?_⟩
    · intro m hmm hms
      rw [hfst]
      refine List.count_eq_one_of_mem (hnd.filter _) ?_
      simp [List.mem_filter, hmm, hms, hopen m hmm]
    · rw [hfst, List.count_eq_zero]
      simp [List.mem_filter]
    · intro d hd
      rw [hb] at hd
      simp only [List.mem_map] at hd
      obtain ⟨w, _, he⟩ := hd
      simp [← he]
  · intro h
    simp [broadcastToRoom, h]

/-- Witness for C1 at a concrete registry: room `"r"` with members
`[1, 2, 3]`, sender `2`. -/
theorem C1_broadcast_delivery_witness :
    ((broadcastToRoom [(some (JVal.jstr "r"), [1, 2, 3])] (some (JVal.jstr "r")) 2
        (fun _ => true) [("type", JVal.jstr "x")]).map Prod.fst).count 1 = 1 ∧
    ((broadcastToRoom [(some (JVal.jstr "r"), [1, 2, 3])] (some (JVal.jstr "r")) 2
        (fun _ => true) [("type", JVal.jstr "x")]).map Prod.fst).count 2 = 0 ∧
    broadcastToRoom [] (some (JVal.jstr "r")) 2 (fun _ => true) [("type", JVal.jstr "x")] = [] := by
  have h := C1_broadcast_delivery [(some (JVal.jstr "r"), [1, 2, 3])]
    (some (JVal.jstr "r")) 2 (fun _ => true) [("type", JVal.jstr "x")]
  have h2 := C1_broadcast_delivery [] (some (JVal.jstr "r")) 2
    (fun _ => true) [("type", JVal.jstr "x")]
  exact ⟨(h.1 [1, 2, 3] (by decide) (by decide) (fun m _ => rfl)).1 1 (by decide) (by decide),
         (h.1 [1, 2, 3] (by decide) (by decide) (fun m _ => rfl)).2.1,
         h2.2 (by decide)⟩

/-- The member list the `join` case leaves at the joined key. -/
theorem mget_joinRooms_self (rooms : Rooms) (k : RoomKey) (s : SessionId) :
    mget (joinRooms rooms k s) k = some (setAdd ((mget rooms k).getD []) s) := by
  unfold joinRooms
  by_cases h : (mget rooms k).isSome
  · rw [if_pos h, mget_mupd_self]
    obtain ⟨ms, hms⟩ := Option.isSome_iff_exists.mp h
    simp [hms]
  · have hn : mget rooms k = none := Option.not_isSome_iff_eq_none.mp h
    rw [if_neg h, mget_mupd_self, mget_append_of_none _ hn]
    simp [mget, hn]

/-- Keys other than the joined one are untouched by the `join` case. -/
theorem mget_joinRooms_ne (rooms : Rooms) {k k2 : RoomKey} (s : SessionId)
    (h : k2 ≠ k) : mget (joinRooms rooms k s) k2 = mget rooms k2 := by
  unfold joinRooms
  by_cases hp : (mget rooms k).isSome
  · rw [if_pos hp]
    exact mget_mupd_ne _ _ h
  · have hn : mget rooms k = none := Option.not_isSome_iff_eq_none.mp hp
    rw [if_neg hp, mget_mupd_ne _ _ h]
    cases hg : mget rooms k2 with
    | some w => exact mget_append_of_some _ hg
    | none =>
        rw [mget_append_of_none _ hg]
        have h1 : ¬ k = k2 := fun hk => h hk.symm
        simp [mget, if_neg h1, hg]

/-- Claim C2: after every join and every leave, a room id is absent from
the registry iff it has zero members — the join case creates the room on
first join and inserts the session, and `leaveRoom` deletes the entry
exactly when the member set becomes empty, so well-formedness (unique
keys, every present room non-empty and duplicate-free) is preserved. -/
theorem C2_registry_invariant (rooms : Rooms) (k : RoomKey) (s : SessionId)
    (u : Option JVal) (openS : SessionId → Bool) (hWF : roomsWF rooms) :
    roomsWF (joinRooms rooms k s) ∧
    (∃ ms, mget (joinRooms rooms k s) k = some ms ∧ s ∈ ms) ∧
    roomsWF (leaveRoom rooms k s u openS).1 ∧
    (mget rooms k = some [s] → mget (leaveRoom rooms k s u openS).1 k = none) := by
  obtain ⟨hkeys, hne, hnd⟩ := hWF
  refine ⟨?_, ?_, ?_, ?_⟩
  · -- join preserves well-formedness
    unfold joinRooms roomsWF
    by_cases h : (mget rooms k).isSome
    · rw [if_pos h]
      refine ⟨by rw [map_fst_mupd]; exact hkeys, ?_, ?_⟩
      · intro p hp
        rcases mem_mupd hp with ⟨h1, _⟩ | ⟨q, _, _, he⟩
        · exact hne p h1
        · rw [he]
          exact setAdd_ne_nil _ _
      · intro p hp
        rcases mem_mupd hp with ⟨h1, _⟩ | ⟨q, hq, _, he⟩
        · exact hnd p h1
        · rw [he]
          exact nodup_setAdd _ (hnd q hq)
    · have hn : mget rooms k = none := Option.not_isSome_iff_eq_none.mp h
      rw [if_neg h]
      have hk : k ∉ rooms.map Prod.fst := mget_eq_none_iff.mp hn
      refine ⟨?_, ?_, ?_⟩
      · rw [map_fst_mupd, List.map_append]
        refine List.Nodup.append hkeys (List.nodup_singleton _) ?_
        intro x hx hx2
        simp only [List.map_cons, List.map_nil, List.mem_singleton] at hx2
        exact hk (hx2 ▸ hx)
      · intro p hp
        rcases mem_mupd hp with ⟨h1, _⟩ | ⟨q, _, _, he⟩
        · rcases List.mem_append.mp h1 with h2 | h2
          · exact hne p h2
          · simp only [List.mem_singleton] at h2
            rcases mem_mupd hp with ⟨_, h3⟩ | ⟨q, _, _, he⟩
            · exact absurd (by rw [h2]) h3
            · rw [he]
              exact setAdd_ne_nil _ _
        · rw [he]
          exact setAdd_ne_nil _ _
      · intro p hp
        rcases mem_mupd hp with ⟨h1, _⟩ | ⟨q, hq, _, he⟩
        · rcases List.mem_append.mp h1 with h2 | h2
          · exact hnd p h2
          · simp only [List.mem_singleton] at h2
            rw [h2]
            exact List.nodup_nil
        · rcases List.mem_append.mp hq with h2 | h2
          · rw [he]
            exact nodup_setAdd _ (hnd q h2)
          · simp only [List.mem_singleton] at h2
            rw [he, h2]
            exact nodup_setAdd _ List.nodup_nil
  · -- the joined session is a member afterwards
    exact ⟨_, mget_joinRooms_self rooms k s, mem_setAdd_self _ _⟩
  · -- leave preserves well-formedness
    unfold leaveRoom
    cases hg : mget rooms k with
    | none => exact ⟨hkeys, hne, hnd⟩
    | some mems =>
        have hSome : (mget rooms k).isSome := by rw [hg]; rfl
        simp only
        by_cases hlen : (mems.erase s).length = 0
        · simp only [hlen, if_true]
          refine ⟨?_, ?_, ?_⟩
          · exact List.Nodup.sublist (map_fst_mdel_sublist _ k) (by rw [map_fst_mset_of_isSome _ hSome]; exact hkeys)
          · intro p hp
            obtain ⟨hp1, hp2⟩ := mem_mdel hp
            rcases mem_mset hp1 with h1 | h1
            · exact hne p h1
            · exact absurd (by rw [h1]) hp2
          · intro p hp
            obtain ⟨hp1, hp2⟩ := mem_mdel hp
            rcases mem_mset hp1 with h1 | h1
            · exact hnd p h1
            · exact absurd (by rw [h1]) hp2
        · simp only [hlen, if_false]
          refine ⟨by rw [map_fst_mset_of_isSome _ hSome]; exact hkeys, ?_, ?_⟩
          · intro p hp
            rcases mem_mset hp with h1 | h1
            · exact hne p h1
            · rw [h1]
              show mems.erase s ≠ []
              intro hcon
              exact hlen (by rw [hcon]; rfl)
          · intro p hp
            rcases mem_mset hp with h1 | h1
            · exact hnd p h1
            · rw [h1]
              exact (hnd _ (mget_mem hg)).erase s
  · -- last leave deletes the entry
    intro hg
    unfold leaveRoom
    rw [hg]
    simp only [List.erase_cons_head, List.length_nil, if_pos rfl]
    exact mget_mdel_self _ k

/-- Witness for C2: session 2 joins existing room `"r"`; session 1, its
sole member, leaves it. -/
theorem C2_registry_invariant_witness :
    (∃ ms, mget (joinRooms [(some (JVal.jstr "r"), [1])] (some (JVal.jstr "r")) 2)
        (some (JVal.jstr "r")) = some ms ∧ 2 ∈ ms) ∧
    mget (leaveRoom [(some (JVal.jstr "r"), [1])] (some (JVal.jstr "r")) 1
        (some (JVal.jstr "a")) (fun _ => true)).1 (some (JVal.jstr "r")) = none := by
  have hWF : roomsWF [(some (JVal.jstr "r"), [1])] := by
    unfold roomsWF
    exact ⟨by decide, by decide, by decide⟩
  have h1 := C2_registry_invariant [(some (JVal.jstr "r"), [1])] (some (JVal.jstr "r")) 2
    (some (JVal.jstr "a")) (fun _ => true) hWF
  have h2 := C2_registry_invariant [(some (JVal.jstr "r"), [1])] (some (JVal.jstr "r")) 1
    (some (JVal.jstr "a")) (fun _ => true) hWF
  exact ⟨h1.2.1, h2.2.2.2 (by decide)⟩

/-- Every delivery of a broadcast carries the broadcast payload. -/
theorem broadcast_payload {rooms : Rooms} {key : RoomKey} {S : SessionId}
    {openS : SessionId → Bool} {msg : JObj} :
    ∀ d ∈ broadcastToRoom rooms key S openS msg, d.2 = msg := by
  intro d hd
  unfold broadcastToRoom at hd
  cases hg : mget rooms key with
  | none =>
      rw [hg] at hd
      simp at hd
  | some mems =>
      rw [hg] at hd
      simp only [List.mem_map] at hd
      obtain ⟨w, _, he⟩ := hd
      simp [← he]

/-- The relay branch of the handler for the five forward-only types. -/
theorem hubStep_forward (rooms : Rooms) (st : ConnState) (self : SessionId)
    (openS : SessionId → Bool) (now : Nat) (data : JObj) (t : String)
    (htype : getF data "type" = some (JVal.jstr t)) (ht : t ∈ forwardTypes) :
    hubStep rooms st self openS now (some data) =
      if truthyO st.currentRoom then
        { rooms := rooms, conn := st,
          sends := broadcastToRoom rooms st.currentRoom self openS
            (setF data "from" (st.userId.getD JVal.jnull)),
          closes := false }
      else { rooms := rooms, conn := st, sends := [], closes := false } := by
  simp only [forwardTypes, List.mem_cons, List.not_mem_nil, or_false] at ht
  have hgd : (match st.userId with | some v => v | none => JVal.jnull) =
      st.userId.getD JVal.jnull := by cases st.userId <;> rfl
  rcases ht with rfl | rfl | rfl | rfl | rfl <;>
    · simp only [hubStep] at htype ⊢
      rw [htype]
      by_cases hcr : truthyO st.currentRoom <;>
        simp [forwardTypes, hcr, hgd]

/-- Claim C8: for a joined session, an inbound message of one of the five
forward-only types is broadcast to the other room members with every
field passed through unchanged except `from`, which is overwritten with
the sender's server-side user id; an unjoined session produces no relay
and no state change. -/
theorem C8_forward_stamps_from (rooms : Rooms) (st : ConnState) (self : SessionId)
    (openS : SessionId → Bool) (now : Nat) (data : JObj) (t : String)
    (htype : getF data "type" = some (JVal.jstr t)) (ht : t ∈ forwardTypes) :
    (∀ u, truthyO st.currentRoom = true → st.userId = some u →
      (hubStep rooms st self openS now (some data)).rooms = rooms ∧
      (hubStep rooms st self openS now (some data)).conn = st ∧
      (hubStep rooms st self openS now (some data)).closes = false ∧
      (hubStep rooms st self openS now (some data)).sends =
        broadcastToRoom rooms st.currentRoom self openS (setF data "from" u) ∧
      (∀ d ∈ (hubStep rooms st self openS now (some data)).sends,
        getF d.2 "from" = some u ∧ ∀ k2, k2 ≠ "from" → getF d.2 k2 = getF data k2)) ∧
    (truthyO st.currentRoom = false →
      hubStep rooms st self openS now (some data) =
        { rooms := rooms, conn := st, sends := [], closes := false }) := by
  have hred := hubStep_forward rooms st self openS now data t htype ht
  constructor
  · intro u hcr hu
    rw [hred, if_pos hcr]
    refine ⟨rfl, rfl, rfl, by simp [hu], ?_⟩
    intro d hd
    have hpay : d.2 = setF data "from" (st.userId.getD JVal.jnull) :=
      broadcast_payload d hd
    rw [hpay, hu]
    constructor
    · exact mget_mset_self data "from" u
    · intro k2 hk2
      exact mget_mset_ne data u hk2
  · intro hcr
    rw [hred, if_neg (by simp [hcr])]

/-- Witness for C8: a joined sender relaying an `offer` whose client-sent
`from` field is overwritten. -/
theorem C8_forward_stamps_from_witness :
    (hubStep [(some (JVal.jstr "r1"), [7, 8])]
        { currentRoom := some (JVal.jstr "r1"), userId := some (JVal.jstr "alice") } 7
        (fun _ => true) 0
        (some [("type", JVal.jstr "offer"), ("sdp", JVal.jstr "X"),
               ("from", JVal.jstr "evil")])).sends =
      broadcastToRoom [(some (JVal.jstr "r1"), [7, 8])] (some (JVal.jstr "r1")) 7
        (fun _ => true)
        (setF [("type", JVal.jstr "offer"), ("sdp", JVal.jstr "X"),
               ("from", JVal.jstr "evil")] "from" (JVal.jstr "alice")) := by
  have h := C8_forward_stamps_from [(some (JVal.jstr "r1"), [7, 8])]
    { currentRoom := some (JVal.jstr "r1"), userId := some (JVal.jstr "alice") } 7
    (fun _ => true) 0
    [("type", JVal.jstr "offer"), ("sdp", JVal.jstr "X"), ("from", JVal.jstr "evil")]
    "offer" (by decide) (by decide)
  exact (h.1 (JVal.jstr "alice") (by decide) rfl).2.2.2.1

/-- `leaveRoom` on an existing room: the socket is removed first, then
the `peer-left` broadcast goes to the shrunken member set, then the
entry is dropped when it became empty. -/
theorem leaveRoom_some (rooms : Rooms) (k : RoomKey) (ws : SessionId)
    (uid : Option JVal) (openS : SessionId → Bool) {mems : List SessionId}
    (hm : mget rooms k = some mems) :
    leaveRoom rooms k ws uid openS =
      (if (mems.erase ws).length = 0 then mdel (mset rooms k (mems.erase ws)) k
       else mset rooms k (mems.erase ws),
       if truthyO uid then
         broadcastToRoom (mset rooms k (mems.erase ws)) k ws openS
           ([("type", JVal.jstr "peer-left")] ++ optF "from" uid)
       else []) := by
  unfold leaveRoom
  rw [hm]
  by_cases hlen : (mems.erase ws).length = 0 <;> simp [hlen]

/-- Keys other than the left one are untouched by `leaveRoom`. -/
theorem mget_leaveRoom_ne (rooms : Rooms) {k k2 : RoomKey} (ws : SessionId)
    (uid : Option JVal) (openS : SessionId → Bool) (h : k2 ≠ k) :
    mget (leaveRoom rooms k ws uid openS).1 k2 = mget rooms k2 := by
  cases hg : mget rooms k with
  | none =>
      unfold leaveRoom
      rw [hg]
  | some mems =>
      rw [leaveRoom_some rooms k ws uid openS hg]
      by_cases hlen : (mems.erase ws).length = 0
      · simp only [hlen, if_true]
        rw [mget_mdel_ne _ h, mget_mset_ne _ _ h]
      · simp only [hlen, if_false]
        exact mget_mset_ne _ _ h

/-- Claim C7: a session joined to room A that processes a `join` for room
B is removed from A, a `peer-left` broadcast is delivered to A's
remaining members before any effect of the insertion into B, and the
session ends up a member of exactly the room of the new `roomId`. -/
theorem C7_rejoin_moves_session (rooms : Rooms) (st : ConnState) (self : SessionId)
    (openS : SessionId → Bool) (now : Nat) (data : JObj) (a u : JVal)
    (memsA : List SessionId)
    (hWF : roomsWF rooms)
    (hcr : st.currentRoom = some a) (ha : a.truthy = true)
    (hu : st.userId = some u) (hut : u.truthy = true)
    (hA : mget rooms (some a) = some memsA) (_hself : self ∈ memsA)
    (honly : ∀ k ms, k ≠ some a → mget rooms k = some ms → self ∉ ms)
    (htype : getF data "type" = some (JVal.jstr "join")) :
    (∃ ms, mget (hubStep rooms st self openS now (some data)).rooms
        (getF data "roomId") = some ms ∧ self ∈ ms) ∧
    (∀ k ms, k ≠ getF data "roomId" →
      mget (hubStep rooms st self openS now (some data)).rooms k = some ms →
      self ∉ ms) ∧
    (∃ rest, (hubStep rooms st self openS now (some data)).sends =
      ((memsA.erase self).filter openS).map
        (fun w => (w, [("type", JVal.jstr "peer-left"), ("from", u)])) ++ rest) := by
  obtain ⟨hkeys, hne, hnd⟩ := hWF
  have hndA : memsA.Nodup := hnd _ (mget_mem hA)
  have hcrT : truthyO st.currentRoom = true := by rw [hcr]; exact ha
  have hred : hubStep rooms st self openS now (some data) =
      { rooms := joinRooms (leaveRoom rooms st.currentRoom self st.userId openS).1
                   (getF data "roomId") self,
        conn := { currentRoom := getF data "roomId",
                  userId := if truthyO (getF data "userId") then getF data "userId"
                            else some (JVal.jstr ("user-" ++ toString now)) },
        sends := (leaveRoom rooms st.currentRoom self st.userId openS).2
          ++ [(self, [("type", JVal.jstr "joined")] ++ optF "roomId" (getF data "roomId")
                ++ optF "userId" (if truthyO (getF data "userId") then getF data "userId"
                                  else some (JVal.jstr ("user-" ++ toString now))))]
          ++ broadcastToRoom (joinRooms (leaveRoom rooms st.currentRoom self st.userId openS).1
                (getF data "roomId") self) (getF data "roomId") self openS
              ([("type", JVal.jstr "peer-joined")]
                ++ optF "userId" (if truthyO (getF data "userId") then getF data "userId"
                                  else some (JVal.jstr ("user-" ++ toString now)))),
        closes := false } := by
    simp only [hubStep] at htype ⊢
    rw [htype]
    simp [hcrT]
  have hleave := leaveRoom_some rooms (some a) self st.userId openS hA
  rw [hcr] at hred
  refine ⟨?_, ?_, ?_⟩
  · -- member of the new room afterwards
    rw [hred]
    exact ⟨_, mget_joinRooms_self _ _ _, mem_setAdd_self _ _⟩
  · -- member of no other room afterwards
    intro k ms hk hm
    rw [hred] at hm
    simp only at hm
    rw [mget_joinRooms_ne _ _ hk] at hm
    by_cases hka : k = some a
    · subst hka
      rw [hleave] at hm
      by_cases hlen : (memsA.erase self).length = 0
      · simp only [hlen, if_true] at hm
        rw [mget_mdel_self] at hm
        exact absurd hm (by simp)
      · simp only [hlen, if_false] at hm
        rw [mget_mset_self] at hm
        have hms2 : ms = memsA.erase self := by
          injection hm with hh
          exact hh.symm
        rw [hms2]
        exact hndA.not_mem_erase
    · rw [mget_leaveRoom_ne _ _ _ _ hka] at hm
      exact honly k ms hka hm
  · -- peer-left to A's remaining members comes first
    rw [hred]
    simp only
    have htr : truthyO st.userId = true := by
      rw [hu]
      simpa [truthyO] using hut
    have hb2 : broadcastToRoom (mset rooms (some a) (memsA.erase self)) (some a) self openS
        ([("type", JVal.jstr "peer-left")] ++ optF "from" st.userId) =
        ((memsA.erase self).filter (fun w => decide (w ≠ self) && openS w)).map
          (fun w => (w, [("type", JVal.jstr "peer-left")] ++ optF "from" st.userId)) := by
      unfold broadcastToRoom
      rw [mget_mset_self]
    have hfc : (memsA.erase self).filter (fun w => decide (w ≠ self) && openS w) =
        (memsA.erase self).filter openS := by
      refine List.filter_congr ?_
      intro x hx
      have hxs : x ≠ self := by
        intro hcon
        exact hndA.not_mem_erase (hcon ▸ hx)
      simp [hxs]
    have hsends : (leaveRoom rooms (some a) self st.userId openS).2 =
        ((memsA.erase self).filter openS).map
          (fun w => (w, [("type", JVal.jstr "peer-left"), ("from", u)])) := by
      rw [hleave]
      show (if truthyO st.userId = true then _ else []) = _
      rw [if_pos htr, hb2, hfc, hu]
      rfl
    exact ⟨_, by rw [List.append_assoc, hsends]⟩

/-- Witness for C7: session 7, joined to room `"A"` with peer 9, joins
room `"B"`. -/
theorem C7_rejoin_moves_session_witness :
    (∃ ms, mget (hubStep [(some (JVal.jstr "A"), [7, 9])]
        { currentRoom := some (JVal.jstr "A"), userId := some (JVal.jstr "al") } 7
        (fun _ => true) 5
        (some [("type", JVal.jstr "join"), ("roomId", JVal.jstr "B")])).rooms
        (some (JVal.jstr "B")) = some ms ∧ 7 ∈ ms) ∧
    (∃ rest, (hubStep [(some (JVal.jstr "A"), [7, 9])]
        { currentRoom := some (JVal.jstr "A"), userId := some (JVal.jstr "al") } 7
        (fun _ => true) 5
        (some [("type", JVal.jstr "join"), ("roomId", JVal.jstr "B")])).sends =
      [(9, [("type", JVal.jstr "peer-left"), ("from", JVal.jstr "al")])] ++ rest) := by
  have h := C7_rejoin_moves_session [(some (JVal.jstr "A"), [7, 9])]
    { currentRoom := some (JVal.jstr "A"), userId := some (JVal.jstr "al") } 7
    (fun _ => true) 5 [("type", JVal.jstr "join"), ("roomId", JVal.jstr "B")]
    (JVal.jstr "A") (JVal.jstr "al") [7, 9]
    (by unfold roomsWF; exact ⟨by decide, by decide, by decide⟩)
    rfl (by decide) rfl (by decide) (by decide) (by decide)
    (by
      intro k ms hk hm
      simp [mget, show ¬ some (JVal.jstr "A") = k from fun hh => hk hh.symm] at hm)
    (by decide)
  obtain ⟨rest, hrest⟩ := h.2.2
  refine ⟨by simpa using h.1, ⟨rest, ?_⟩⟩
  rw [hrest]
  rfl

/-- Claim C9: an inbound frame that is not parseable as JSON makes the
hub reply to the originating session only with an
`error{message}` object; nothing is delivered to any other session, the
room registry and the connection state are unchanged, and the handler
does not close the connection. -/
theorem C9_malformed_frame (rooms : Rooms) (st : ConnState) (self : SessionId)
    (openS : SessionId → Bool) (now : Nat) :
    hubStep rooms st self openS now none =
      { rooms := rooms, conn := st,
        sends := [(self, [("type", JVal.jstr "error"),
                          ("message", JVal.jstr "Invalid message format")])],
        closes := false } := rfl

/-! ### Claims about the classifier worker supervisor -/

/-- Only a `classify` event can spawn, and it spawns exactly when no
process exists. -/
theorem wstep_spawns (e : WEvent) (s : WState) :
    (wstep e s).spawns =
      if e.isClassify then (if s.hasProc then 0 else 1) else 0 := by
  cases e with
  | classify c img n w =>
      simp only [wstep, WEvent.isClassify, if_true]
      by_cases hr : s.ready
      · simp [hr]
      · simp [hr]
  | readyLine n w => rfl
  | stdoutLine resp =>
      simp only [wstep, WEvent.isClassify, Bool.false_eq_true, if_false]
      split
      · rfl
      · split
        · rfl
        · split <;> rfl
  | timeoutFire i =>
      simp only [wstep, WEvent.isClassify, Bool.false_eq_true, if_false]
      split <;> rfl
  | procExit => rfl

/-- A `classify` step always leaves a process in place. -/
theorem wstep_classify_hasProc (s : WState) (c : Nat) (img : String)
    (n : Nat) (w : Bool) : (wstep (.classify c img n w) s).st.hasProc = true := by
  simp only [wstep]
  by_cases hr : s.ready
  · simp only [hr, if_true]
    unfold sendPhase
    by_cases hw : w <;> simp [hw]
  · simp [hr]

/-- Claim C3: on worker exit every pending request is rejected with the
same worker-exited error, the pending map empties, the supervisor is
left with no process (Crashed), the exit itself and every non-classify
event spawn nothing, and the very next classify call spawns exactly
once. -/
theorem C3_exit_rejects_all (st : WState) (c : Nat) (img : String)
    (n : Nat) (w : Bool) :
    (wstep .procExit st).settles =
      st.pending.map (fun p => (p.2.caller, Outcome.workerExited)) ∧
    (wstep .procExit st).settles.length = st.pending.length ∧
    (wstep .procExit st).st.pending = [] ∧
    (wstep .procExit st).st.hasProc = false ∧
    (wstep .procExit st).st.ready = false ∧
    (wstep .procExit st).spawns = 0 ∧
    (∀ (s2 : WState) (e : WEvent), e.isClassify = false → (wstep e s2).spawns = 0) ∧
    (wstep (.classify c img n w) (wstep .procExit st).st).spawns = 1 := by
  refine ⟨rfl, by simp [wstep], rfl, rfl, rfl, rfl, ?_, ?_⟩
  · intro s2 e he
    rw [wstep_spawns, he]
    rfl
  · rw [wstep_spawns]
    rfl

/-- Witness for C3 at a state with two pending requests. -/
theorem C3_exit_rejects_all_witness :
    (wstep .procExit
        { hasProc := true, ready := true, readyCallbacks := [],
          pending := [(⟨100, 1⟩, ⟨5, 30100⟩), (⟨101, 2⟩, ⟨6, 30101⟩)],
          counter := 2 }).settles =
      [(5, Outcome.workerExited), (6, Outcome.workerExited)] ∧
    (wstep (.classify 7 "img" 200 true)
        (wstep .procExit
          { hasProc := true, ready := true, readyCallbacks := [],
            pending := [(⟨100, 1⟩, ⟨5, 30100⟩), (⟨101, 2⟩, ⟨6, 30101⟩)],
            counter := 2 }).st).spawns = 1 := by
  have h := C3_exit_rejects_all
    { hasProc := true, ready := true, readyCallbacks := [],
      pending := [(⟨100, 1⟩, ⟨5, 30100⟩), (⟨101, 2⟩, ⟨6, 30101⟩)],
      counter := 2 } 7 "img" 200 true
  refine ⟨?_, h.2.2.2.2.2.2.2⟩
  rw [h.1]
  rfl

/-- Claim C4: when the 30 s timer of a pending correlation id fires, the
call is rejected with the timeout error and its entry removed, the
worker process and readiness flag are untouched, a later worker response
carrying that id is ignored entirely, and a registered request's
deadline is its issue time plus `REQUEST_TIMEOUT_MS`. -/
theorem C4_timeout_rejects (st : WState) (i : ReqId) (entry : PendingEntry)
    (c2 : Nat) (img2 : String) (n2 : Nat)
    (h : mget st.pending i = some entry) :
    wstep (.timeoutFire i) st =
      ⟨{ st with pending := mdel st.pending i },
       [(entry.caller, Outcome.timedOut)], [], 0⟩ ∧
    mget (wstep (.timeoutFire i) st).st.pending i = none ∧
    (wstep (.timeoutFire i) st).st.hasProc = st.hasProc ∧
    (wstep (.timeoutFire i) st).st.ready = st.ready ∧
    (∀ r : WResp, r.id = some i →
      wstep (.stdoutLine (some r)) (wstep (.timeoutFire i) st).st =
        ⟨(wstep (.timeoutFire i) st).st, [], [], 0⟩) ∧
    (st.hasProc = true →
      (sendPhase st c2 img2 n2 true).1.pending =
        mset st.pending ⟨n2, st.counter + 1⟩ ⟨c2, n2 + REQUEST_TIMEOUT_MS⟩) := by
  have hred : wstep (.timeoutFire i) st =
      ⟨{ st with pending := mdel st.pending i },
       [(entry.caller, Outcome.timedOut)], [], 0⟩ := by
    simp [wstep, h]
  refine ⟨hred, ?_, ?_, ?_, ?_, ?_⟩
  · rw [hred]
    exact mget_mdel_self _ _
  · rw [hred]
  · rw [hred]
  · intro r hr
    rw [hred]
    simp [wstep, hr, mget_mdel_self]
  · intro hp
    unfold sendPhase
    simp [hp]

/-- Witness for C4 at a state holding exactly the timed-out request. -/
theorem C4_timeout_rejects_witness :
    wstep (.timeoutFire ⟨100, 1⟩)
        { hasProc := true, ready := true, readyCallbacks := [],
          pending := [(⟨100, 1⟩, ⟨5, 30100⟩)], counter := 1 } =
      ⟨{ hasProc := true, ready := true, readyCallbacks := [],
         pending := [], counter := 1 },
       [(5, Outcome.timedOut)], [], 0⟩ := by
  have h := C4_timeout_rejects
    { hasProc := true, ready := true, readyCallbacks := [],
      pending := [(⟨100, 1⟩, ⟨5, 30100⟩)], counter := 1 }
    ⟨100, 1⟩ ⟨5, 30100⟩ 9 "i" 200 (by decide)
  rw [h.1]
  rfl

/-- `sendPhase` never changes whether a process exists. -/
theorem sendPhase_hasProc (st : WState) (c : Nat) (img : String) (n : Nat)
    (w : Bool) : (sendPhase st c img n w).1.hasProc = st.hasProc := by
  unfold sendPhase
  by_cases hp : st.hasProc = true <;> by_cases hw : w = true <;> simp [hp, hw]

/-- `sendPhase` never touches the ready-callback queue. -/
theorem sendPhase_rcb (st : WState) (c : Nat) (img : String) (n : Nat)
    (w : Bool) : (sendPhase st c img n w).1.readyCallbacks = st.readyCallbacks := by
  unfold sendPhase
  by_cases hp : st.hasProc = true <;> by_cases hw : w = true <;> simp [hp, hw]

/-- The request counter never decreases. -/
theorem sendPhase_counter_le (st : WState) (c : Nat) (img : String) (n : Nat)
    (w : Bool) : st.counter ≤ (sendPhase st c img n w).1.counter := by
  unfold sendPhase
  by_cases hp : st.hasProc = true <;> by_cases hw : w = true <;>
    simp [hp, hw, Nat.le_succ]

/-- `sendPhase` keeps every pending id below the counter. -/
theorem sendPhase_bound (st : WState) (c : Nat) (img : String) (n : Nat)
    (w : Bool) (h : pendingBound st) : pendingBound (sendPhase st c img n w).1 := by
  unfold sendPhase
  by_cases hp : st.hasProc = true
  · by_cases hw : w = true
    · simp only [hp, hw, if_true]
      intro p hp2
      rcases mem_mset hp2 with h1 | h1
      · exact le_trans (h p h1) (Nat.le_succ _)
      · rw [h1]
    · simp only [hp, hw, if_true, if_false]
      intro p hp2
      exact le_trans (h p hp2) (Nat.le_succ _)
  · simp only [hp, if_false]
    exact h

/-- Under the counter bound, the next generated correlation id is not
already pending. -/
theorem pendingBound_fresh (st : WState) (h : pendingBound st) (n : Nat) :
    mget st.pending ⟨n, st.counter + 1⟩ = none := by
  rw [mget_eq_none_iff]
  intro hm
  simp only [List.mem_map] at hm
  obtain ⟨p, hp, he⟩ := hm
  have hb := h p hp
  rw [he] at hb
  simp only at hb
  omega

/-- Running the queued classify continuations at readiness, with writes
succeeding: no caller is rejected, each queued caller's request is
registered in queue order, the queue itself is untouched. -/
theorem runCallbacks_spec (cbs : List (Nat × String)) :
    ∀ (st : WState) (now : Nat), st.hasProc = true → pendingBound st →
    (runCallbacks st cbs now true).1.hasProc = true ∧
    pendingBound (runCallbacks st cbs now true).1 ∧
    (runCallbacks st cbs now true).1.readyCallbacks = st.readyCallbacks ∧
    (runCallbacks st cbs now true).1.pending.map (fun p => p.2.caller) =
      st.pending.map (fun p => p.2.caller) ++ cbs.map Prod.fst ∧
    (runCallbacks st cbs now true).2.1 = [] := by
  induction cbs with
  | nil =>
      intro st now hp hb
      exact ⟨hp, hb, rfl, by simp [runCallbacks], rfl⟩
  | cons cb t ih =>
      intro st now hp hb
      obtain ⟨c, img⟩ := cb
      have hfresh := pendingBound_fresh st hb now
      have hsend : sendPhase st c img now true =
          ({ st with counter := st.counter + 1,
                     pending := st.pending ++ [(⟨now, st.counter + 1⟩,
                       ⟨c, now + REQUEST_TIMEOUT_MS⟩)] }, [],
           [(⟨now, st.counter + 1⟩, img)]) := by
        unfold sendPhase
        simp [hp, mset_of_none _ hfresh]
      have hp1 : (sendPhase st c img now true).1.hasProc = true := by
        rw [sendPhase_hasProc]; exact hp
      have hb1 : pendingBound (sendPhase st c img now true).1 :=
        sendPhase_bound st c img now true hb
      have hih := ih (sendPhase st c img now true).1 now hp1 hb1
      simp only [runCallbacks]
      rw [hsend] at hih ⊢
      refine ⟨hih.1, hih.2.1, ?_, ?_, ?_⟩
      · exact hih.2.2.1
      · rw [hih.2.2.2.1]
        simp
      · simpa using hih.2.2.2.2

/-- After a `classify` step the state can only have gained spawn count
zero sequences: helper for the at-most-one-spawn argument. -/
theorem spawnCount_zero (evs : List WEvent) :
    ∀ st : WState, st.hasProc = true → (∀ e ∈ evs, e.isClassify = true) →
    spawnCount st evs = 0 := by
  induction evs with
  | nil => intro st _ _; rfl
  | cons e t ih =>
      intro st hp hall
      have he := hall e (List.mem_cons_self e t)
      cases e with
      | classify c img n w =>
          simp only [spawnCount]
          rw [wstep_spawns]
          simp only [WEvent.isClassify, if_true, hp]
          rw [ih _ (wstep_classify_hasProc st c img n w)
              (fun e2 he2 => hall e2 (List.mem_cons_of_mem _ he2))]
      | readyLine n w => simp [WEvent.isClassify] at he
      | stdoutLine resp => simp [WEvent.isClassify] at he
      | timeoutFire i => simp [WEvent.isClassify] at he
      | procExit => simp [WEvent.isClassify] at he

/-- Claim C5: a classify call arriving while the worker is `Starting`
(process spawned, readiness not yet seen) settles nothing, registers
nothing, spawns nothing and is queued; the readiness signal empties the
queue and registers a request for every queued caller in order; and any
sequence of classify calls causes at most one spawn in total (zero when
a process already exists). -/
theorem C5_starting_coalesces (st : WState) (c : Nat) (img : String)
    (now : Nat) (w : Bool) :
    (st.hasProc = true → st.ready = false →
      wstep (.classify c img now w) st =
        ⟨{ st with readyCallbacks := st.readyCallbacks ++ [(c, img)] }, [], [], 0⟩) ∧
    (st.hasProc = true → pendingBound st →
      (wstep (.readyLine now true) st).st.readyCallbacks = [] ∧
      (wstep (.readyLine now true) st).settles = [] ∧
      (wstep (.readyLine now true) st).st.pending.map (fun p => p.2.caller) =
        st.pending.map (fun p => p.2.caller) ++ st.readyCallbacks.map Prod.fst) ∧
    (∀ evs, (∀ e ∈ evs, e.isClassify = true) → spawnCount st evs ≤ 1) ∧
    (st.hasProc = true → ∀ evs, (∀ e ∈ evs, e.isClassify = true) →
      spawnCount st evs = 0) := by
  refine ⟨?_, ?_, ?_, ?_⟩
  · intro hp hr
    cases st with
    | mk a b rcb pend cnt =>
        simp only at hp hr
        subst hp
        subst hr
        simp [wstep]
  · intro hp hb
    have hspec := runCallbacks_spec st.readyCallbacks { st with ready := true } now hp hb
    exact ⟨rfl, hspec.2.2.2.2, hspec.2.2.2.1⟩
  · intro evs hall
    cases evs with
    | nil => simp [spawnCount]
    | cons e t =>
        have he := hall e (List.mem_cons_self e t)
        cases e with
        | classify c2 img2 n2 w2 =>
            simp only [spawnCount]
            rw [spawnCount_zero t _ (wstep_classify_hasProc st c2 img2 n2 w2)
                (fun e2 he2 => hall e2 (List.mem_cons_of_mem _ he2))]
            rw [wstep_spawns]
            simp only [WEvent.isClassify, if_true]
            by_cases hp : st.hasProc = true <;> simp [hp]
        | readyLine n2 w2 => simp [WEvent.isClassify] at he
        | stdoutLine resp => simp [WEvent.isClassify] at he
        | timeoutFire i => simp [WEvent.isClassify] at he
        | procExit => simp [WEvent.isClassify] at he
  · intro hp evs hall
    exact spawnCount_zero evs st hp hall

/-- Witness for C5: a call queued while `Starting`, and two classify
calls from `NotStarted` spawning at most once. -/
theorem C5_starting_coalesces_witness :
    wstep (.classify 1 "i" 10 true)
        { hasProc := true, ready := false, readyCallbacks := [],
          pending := [], counter := 0 } =
      ⟨{ hasProc := true, ready := false, readyCallbacks := [(1, "i")],
         pending := [], counter := 0 }, [], [], 0⟩ ∧
    spawnCount
      { hasProc := false, ready := false, readyCallbacks := [],
        pending := [], counter := 0 }
      [.classify 1 "a" 10 true, .classify 2 "b" 11 true] ≤ 1 := by
  have h := C5_starting_coalesces
    { hasProc := true, ready := false, readyCallbacks := [], pending := [], counter := 0 }
    1 "i" 10 true
  have h2 := C5_starting_coalesces
    { hasProc := false, ready := false, readyCallbacks := [], pending := [], counter := 0 }
    1 "i" 10 true
  refine ⟨?_, h2.2.2.1 [.classify 1 "a" 10 true, .classify 2 "b" 11 true] (by decide)⟩
  rw [h.1 rfl rfl]
  rfl

/-- Every event of the supervisor keeps pending ids below the counter. -/
theorem runCallbacks_bound (cbs : List (Nat × String)) :
    ∀ (st : WState) (now : Nat) (w : Bool), pendingBound st →
    pendingBound (runCallbacks st cbs now w).1 := by
  induction cbs with
  | nil => intro st now w h; exact h
  | cons cb t ih =>
      intro st now w h
      obtain ⟨c, img⟩ := cb
      simp only [runCallbacks]
      exact ih _ now w (sendPhase_bound _ _ _ _ _ h)

/-- The counter bound on pending ids is an invariant of every step. -/
theorem wstep_bound (e : WEvent) (st : WState) (h : pendingBound st) :
    pendingBound (wstep e st).st := by
  cases e with
  | classify c img n w =>
      by_cases hr : st.ready
      · have hq : (wstep (.classify c img n w) st).st =
            (sendPhase { st with hasProc := true } c img n w).1 := by
          simp [wstep, hr]
        rw [hq]
        exact sendPhase_bound _ _ _ _ _ h
      · have hq : (wstep (.classify c img n w) st).st =
            { st with hasProc := true,
                      readyCallbacks := st.readyCallbacks ++ [(c, img)] } := by
          simp [wstep, hr]
        rw [hq]
        exact h
  | readyLine n w =>
      exact runCallbacks_bound _ _ _ _ h
  | stdoutLine resp =>
      simp only [wstep]
      split
      · exact h
      · split
        · exact h
        · split
          · exact h
          · intro p hp2
            exact h p (mem_mdel hp2).1
  | timeoutFire i =>
      simp only [wstep]
      split
      · exact h
      · intro p hp2
        exact h p (mem_mdel hp2).1
  | procExit =>
      intro p hp2
      exact absurd hp2 (List.not_mem_nil p)

/-- Claim C6: a worker stdout line settles a request strictly by its id:
a matched id settles exactly the stored caller, removing the entry in
the same step while every other entry is untouched; a line whose id is
unknown, missing, or unparseable is ignored entirely; the counter bound
is an invariant of every event, making the next generated id fresh, so
no pending entry is ever overwritten or settled twice. -/
theorem C6_match_by_id (st : WState) (i : ReqId) (entry : PendingEntry) (r : WResp) :
    (r.id = some i → mget st.pending i = some entry →
      wstep (.stdoutLine (some r)) st =
        ⟨{ st with pending := mdel st.pending i },
         [(entry.caller, respOutcome r)], [], 0⟩ ∧
      mget (mdel st.pending i) i = none ∧
      (∀ j : ReqId, j ≠ i → mget (mdel st.pending i) j = mget st.pending j)) ∧
    (r.id = some i → mget st.pending i = none →
      wstep (.stdoutLine (some r)) st = ⟨st, [], [], 0⟩) ∧
    (r.id = none → wstep (.stdoutLine (some r)) st = ⟨st, [], [], 0⟩) ∧
    wstep (.stdoutLine none) st = ⟨st, [], [], 0⟩ ∧
    (∀ e : WEvent, pendingBound st → pendingBound (wstep e st).st) ∧
    (pendingBound st → ∀ n : Nat, mget st.pending ⟨n, st.counter + 1⟩ = none) := by
  refine ⟨?_, ?_, ?_, rfl, fun e hb => wstep_bound e st hb,
          fun hb n => pendingBound_fresh st hb n⟩
  · intro hid hpe
    exact ⟨by simp [wstep, hid, hpe], mget_mdel_self _ _,
           fun j hj => mget_mdel_ne _ hj⟩
  · intro hid hpe
    simp [wstep, hid, hpe]
  · intro hid
    simp [wstep, hid]

/-- Witness for C6: of two pending requests, the response for the second
id settles exactly its caller and removes exactly its entry. -/
theorem C6_match_by_id_witness :
    wstep (.stdoutLine (some ⟨some ⟨101, 2⟩, none, some "A", some "0.91"⟩))
        { hasProc := true, ready := true, readyCallbacks := [],
          pending := [(⟨100, 1⟩, ⟨5, 30100⟩), (⟨101, 2⟩, ⟨6, 30101⟩)],
          counter := 2 } =
      ⟨{ hasProc := true, ready := true, readyCallbacks := [],
         pending := [(⟨100, 1⟩, ⟨5, 30100⟩)], counter := 2 },
       [(6, Outcome.classified (some "A") (some "0.91"))], [], 0⟩ := by
  have h := C6_match_by_id
    { hasProc := true, ready := true, readyCallbacks := [],
      pending := [(⟨100, 1⟩, ⟨5, 30100⟩), (⟨101, 2⟩, ⟨6, 30101⟩)], counter := 2 }
    ⟨101, 2⟩ ⟨6, 30101⟩ ⟨some ⟨101, 2⟩, none, some "A", some "0.91"⟩
  rw [(h.1 rfl (by decide)).1]
  rfl

/-- The only caller `sendPhase` can settle is its own. -/
theorem sendPhase_settles_callers (st : WState) (c : Nat) (img : String)
    (n : Nat) (w : Bool) :
    ∀ x ∈ ((sendPhase st c img n w).2.1).map Prod.fst, x = c := by
  unfold sendPhase
  by_cases hp : st.hasProc = true <;> by_cases hw : w = true <;>
    simp [hp, hw]

/-- The only caller `sendPhase` can add to the pending map is its own. -/
theorem sendPhase_pending_callers (st : WState) (c : Nat) (img : String)
    (n : Nat) (w : Bool) :
    ∀ x ∈ ((sendPhase st c img n w).1.pending).map (fun p => p.2.caller),
      x ∈ st.pending.map (fun p => p.2.caller) ∨ x = c := by
  unfold sendPhase
  by_cases hp : st.hasProc = true
  · by_cases hw : w = true
    · simp only [hp, hw, if_true]
      intro x hx
      simp only [List.mem_map] at hx
      obtain ⟨p, hp2, he⟩ := hx
      rcases mem_mset hp2 with h1 | h1
      · exact Or.inl (List.mem_map.mpr ⟨p, h1, he⟩)
      · right
        rw [h1] at he
        exact he.symm
    · simp only [hp, hw, if_true, if_false]
      intro x hx
      exact Or.inl hx
  · simp only [hp, if_false]
    intro x hx
    exact Or.inl hx

/-- Callers settled or registered while draining the ready queue come
from the queue; the queue field itself is untouched. -/
theorem runCallbacks_callers (cbs : List (Nat × String)) :
    ∀ (st : WState) (now : Nat) (w : Bool),
    (∀ x ∈ ((runCallbacks st cbs now w).2.1).map Prod.fst, x ∈ cbs.map Prod.fst) ∧
    (∀ x ∈ ((runCallbacks st cbs now w).1.pending).map (fun p => p.2.caller),
       x ∈ st.pending.map (fun p => p.2.caller) ∨ x ∈ cbs.map Prod.fst) ∧
    (runCallbacks st cbs now w).1.readyCallbacks = st.readyCallbacks := by
  induction cbs with
  | nil =>
      intro st now w
      exact ⟨by simp [runCallbacks], fun x hx => Or.inl hx, rfl⟩
  | cons cb t ih =>
      intro st now w
      obtain ⟨c, img⟩ := cb
      have hih := ih (sendPhase st c img now w).1 now w
      simp only [runCallbacks]
      refine ⟨?_, ?_, ?_⟩
      · intro x hx
        simp only [List.map_append, List.mem_append] at hx
        rcases hx with hx | hx
        · have := sendPhase_settles_callers st c img now w x hx
          simp [this]
        · have := hih.1 x hx
          simp only [List.map_cons, List.mem_cons]
          exact Or.inr this
      · intro x hx
        rcases hih.2.1 x hx with h1 | h1
        · rcases sendPhase_pending_callers st c img now w x h1 with h2 | h2
          · exact Or.inl h2
          · right
            simp [h2]
        · right
          simp only [List.map_cons, List.mem_cons]
          exact Or.inr h1
      · rw [hih.2.2, sendPhase_rcb]

/-- A caller the supervisor no longer holds is never settled by any
event that is not a fresh classify call by that same caller, and stays
absent from the supervisor state. -/
theorem wstep_preserves_absent (s : WState) (e : WEvent) (c : Nat)
    (hc : c ∉ callersOf s) (he : WEvent.callerOf e ≠ some c) :
    c ∉ ((wstep e s).settles).map Prod.fst ∧ c ∉ callersOf (wstep e s).st := by
  have hcr : c ∉ s.readyCallbacks.map Prod.fst := by
    intro h
    exact hc (List.mem_append.mpr (Or.inl h))
  have hcp : c ∉ s.pending.map (fun p => p.2.caller) := by
    intro h
    exact hc (List.mem_append.mpr (Or.inr h))
  cases e with
  | classify c2 img n w =>
      have hc2 : c2 ≠ c := by
        intro h
        exact he (by rw [WEvent.callerOf, h])
      by_cases hr : s.ready
      · have hq : wstep (.classify c2 img n w) s =
            ⟨(sendPhase { s with hasProc := true } c2 img n w).1,
             (sendPhase { s with hasProc := true } c2 img n w).2.1,
             (sendPhase { s with hasProc := true } c2 img n w).2.2,
             if s.hasProc then 0 else 1⟩ := by
          simp [wstep, hr]
        rw [hq]
        constructor
        · intro hx
          exact hc2 (sendPhase_settles_callers _ c2 img n w c hx).symm
        · intro hx
          rcases List.mem_append.mp hx with hx | hx
          · rw [sendPhase_rcb] at hx
            exact hcr hx
          · rcases sendPhase_pending_callers _ c2 img n w c hx with h1 | h1
            · exact hcp h1
            · exact hc2 h1.symm
      · have hq : wstep (.classify c2 img n w) s =
            ⟨{ s with hasProc := true,
                      readyCallbacks := s.readyCallbacks ++ [(c2, img)] },
             [], [], if s.hasProc then 0 else 1⟩ := by
          simp [wstep, hr]
        rw [hq]
        refine ⟨by simp, ?_⟩
        intro hx
        rcases List.mem_append.mp hx with hx | hx
        · simp only [List.map_append, List.mem_append] at hx
          rcases hx with hx | hx
          · exact hcr hx
          · simp only [List.map_cons, List.map_nil, List.mem_singleton] at hx
            exact hc2 hx.symm
        · exact hcp hx
  | readyLine n w =>
      have hrun := runCallbacks_callers s.readyCallbacks { s with ready := true } n w
      have hrcb : (wstep (.readyLine n w) s).st.readyCallbacks = [] := rfl
      have hpend : (wstep (.readyLine n w) s).st.pending =
          (runCallbacks { s with ready := true } s.readyCallbacks n w).1.pending := rfl
      constructor
      · intro hx
        exact hcr (hrun.1 c hx)
      · intro hx
        rcases List.mem_append.mp hx with hx | hx
        · rw [hrcb] at hx
          simp at hx
        · rw [hpend] at hx
          rcases hrun.2.1 c hx with h1 | h1
          · exact hcp h1
          · exact hcr h1
  | stdoutLine resp =>
      simp only [wstep]
      split
      · exact ⟨by simp, hc⟩
      · split
        · exact ⟨by simp, hc⟩
        · split
          · exact ⟨by simp, hc⟩
          · rename_i rid hid oent entry hpe
            constructor
            · intro hx
              simp only [List.map_cons, List.map_nil, List.mem_singleton] at hx
              apply hcp
              rw [hx]
              exact List.mem_map.mpr ⟨(rid, entry), mget_mem hpe, rfl⟩
            · intro hx
              rcases List.mem_append.mp hx with hx | hx
              · exact hcr hx
              · apply hcp
                simp only [List.mem_map] at hx ⊢
                obtain ⟨p, hp2, hep⟩ := hx
                exact ⟨p, (mem_mdel hp2).1, hep⟩
  | timeoutFire i =>
      simp only [wstep]
      split
      · exact ⟨by simp, hc⟩
      · rename_i entry hpe
        constructor
        · intro hx
          simp only [List.map_cons, List.map_nil, List.mem_singleton] at hx
          apply hcp
          rw [hx]
          exact List.mem_map.mpr ⟨(i, entry), mget_mem hpe, rfl⟩
        · intro hx
          rcases List.mem_append.mp hx with hx | hx
          · exact hcr hx
          · apply hcp
            simp only [List.mem_map] at hx ⊢
            obtain ⟨p, hp2, hep⟩ := hx
            exact ⟨p, (mem_mdel hp2).1, hep⟩
  | procExit =>
      constructor
      · intro hx
        apply hcp
        simpa [wstep, List.map_map, Function.comp] using hx
      · intro hx
        simp [callersOf, wstep] at hx

/-- Claim C10: when the worker exits while `Starting`, a classify caller
that is queued awaiting readiness and has no pending entry receives no
settlement from the exit step (only pending callers are rejected), the
queued callbacks are discarded, and — being held nowhere afterwards —
the caller is never settled by any later event short of a fresh classify
call of its own: its promise hangs forever. -/
theorem C10_starting_exit_never_settles (st : WState) (c : Nat)
    (_hq : c ∈ st.readyCallbacks.map Prod.fst)
    (hnp : c ∉ st.pending.map (fun p => p.2.caller)) :
    c ∉ ((wstep .procExit st).settles).map Prod.fst ∧
    (wstep .procExit st).st.readyCallbacks = [] ∧
    (wstep .procExit st).st.pending = [] ∧
    c ∉ callersOf (wstep .procExit st).st ∧
    (∀ (s2 : WState) (e : WEvent), c ∉ callersOf s2 → WEvent.callerOf e ≠ some c →
      c ∉ ((wstep e s2).settles).map Prod.fst ∧ c ∉ callersOf (wstep e s2).st) := by
  refine ⟨?_, rfl, rfl, ?_, fun s2 e h1 h2 => wstep_preserves_absent s2 e c h1 h2⟩
  · intro hx
    apply hnp
    simpa [wstep, List.map_map, Function.comp] using hx
  · intro hx
    simp [callersOf, wstep] at hx

/-- Witness for C10: caller 3 queued awaiting readiness when the worker
exits with one unrelated pending request. -/
theorem C10_starting_exit_never_settles_witness :
    (3 ∉ ((wstep .procExit
        { hasProc := true, ready := false, readyCallbacks := [(3, "i")],
          pending := [(⟨100, 1⟩, ⟨5, 30100⟩)], counter := 1 }).settles).map Prod.fst) ∧
    (wstep .procExit
        { hasProc := true, ready := false, readyCallbacks := [(3, "i")],
          pending := [(⟨100, 1⟩, ⟨5, 30100⟩)], counter := 1 }).st.readyCallbacks = [] := by
  have h := C10_starting_exit_never_settles
    { hasProc := true, ready := false, readyCallbacks := [(3, "i")],
      pending := [(⟨100, 1⟩, ⟨5, 30100⟩)], counter := 1 } 3
    (by decide) (by decide)
  exact ⟨h.1, h.2.1⟩

end Gestr
